import Mathlib

/-!
Verification development for a two-script bioinformatics repository:
a splice-validation pipeline wrapper (`outrigger_validate.py`) and a
single-cell expression helper library (`scanpy_helpers.py`).

Strings are modelled as `List Char`, Python `str.split(sep)` as
`splitOnChar`, and the external subprocesses of the pipeline as an
environment of exit codes.  Matrix values are opaque to every operation
studied here, so they are carried as integers.
-/

namespace BiohubScratch

/-- Python `s.split(sep)` for a one-character separator: splits at every
occurrence of `sep`, keeping empty pieces, and returns `[[]]` on the
empty string. -/
def splitOnChar (sep : Char) : List Char → List (List Char)
  | [] => [[]]
  | c :: cs =>
    match splitOnChar sep cs with
    | [] => [[]]
    | t :: ts => if c = sep then [] :: t :: ts else (c :: t) :: ts

theorem splitOnChar_ne_nil (sep : Char) (s : List Char) : splitOnChar sep s ≠ [] := by
  cases s with
  | nil => simp [splitOnChar]
  | cons c cs =>
    simp only [splitOnChar]
    cases h : splitOnChar sep cs with
    | nil => simp
    | cons t ts =>
      by_cases hc : c = sep <;> simp [hc]

theorem splitOnChar_not_mem {sep : Char} {s : List Char} (h : sep ∉ s) :
    splitOnChar sep s = [s] := by
  induction s with
  | nil => rfl
  | cons c cs ih =>
    have hc : c ≠ sep := fun hcs => h (hcs ▸ List.mem_cons_self c cs)
    have hcs : sep ∉ cs := fun hm => h (List.mem_cons_of_mem c hm)
    simp only [splitOnChar, ih hcs]
    simp [hc]

/-- Splitting a list that starts with a separator-free block `a` followed by
the separator peels off exactly `a`. -/
theorem splitOnChar_append {sep : Char} {a : List Char} (h : sep ∉ a) (b : List Char) :
    splitOnChar sep (a ++ sep :: b) = a :: splitOnChar sep b := by
  induction a with
  | nil =>
    simp only [List.nil_append, splitOnChar]
    cases hb : splitOnChar sep b with
    | nil => exact absurd hb (splitOnChar_ne_nil sep b)
    | cons t ts => simp
  | cons c a' ih =>
    have hc : c ≠ sep := fun hcs => h (hcs ▸ List.mem_cons_self c a')
    have ha' : sep ∉ a' := fun hm => h (List.mem_cons_of_mem c hm)
    simp only [List.cons_append, splitOnChar, List.append_eq]
    rw [ih ha']
    simp [hc]

theorem two_le_length_splitOnChar {sep : Char} {s : List Char} (h : sep ∈ s) :
    2 ≤ (splitOnChar sep s).length := by
  induction s with
  | nil => cases h
  | cons c cs ih =>
    simp only [splitOnChar]
    cases hcs : splitOnChar sep cs with
    | nil => exact absurd hcs (splitOnChar_ne_nil sep cs)
    | cons t ts =>
      by_cases hc : c = sep
      · simp [hc]
      · have hmem : sep ∈ cs := by
          rcases List.mem_cons.mp h with h1 | h2
          · exact absurd h1.symm hc
          · exact h2
        have := ih hmem
        rw [hcs] at this
        simpa [hc] using this

/-- The last piece of a split is the block after the last separator. -/
theorem splitOnChar_getLastD {sep : Char} {b : List Char} (hb : sep ∉ b) :
    ∀ a : List Char, (splitOnChar sep (a ++ sep :: b)).getLastD [] = b := by
  intro a
  induction a with
  | nil =>
    simp only [List.nil_append, splitOnChar]
    cases hsb : splitOnChar sep b with
    | nil => exact absurd hsb (splitOnChar_ne_nil sep b)
    | cons t ts =>
      have : splitOnChar sep b = [b] := splitOnChar_not_mem hb
      rw [this] at hsb
      cases hsb
      simp
  | cons c a' ih =>
    simp only [List.cons_append, splitOnChar, List.append_eq]
    cases hsa : splitOnChar sep (a' ++ sep :: b) with
    | nil => exact absurd hsa (splitOnChar_ne_nil sep _)
    | cons t ts =>
      have hlen : 2 ≤ (splitOnChar sep (a' ++ sep :: b)).length := by
        apply two_le_length_splitOnChar
        simp
      rw [hsa] at hlen
      have hts : ts ≠ [] := by
        intro hnil
        rw [hnil] at hlen
        simp at hlen
      rw [hsa] at ih
      by_cases hc : c = sep
      · simpa [hc] using ih
      · simp only [hc, if_false]
        cases ts with
        | nil => exact absurd rfl hts
        | cons u us => simpa using ih

/-- Embeds `module1` of `outrigger_validate.py`, first step:
`file_prefix = s3path.split('.')[0].split('/')[-1]` — the part of the whole
path before its first dot, then the part of that after its last slash. -/
def filePre (s3path : List Char) : List Char :=
  (splitOnChar '/' ((splitOnChar '.' s3path).headD [])).getLastD []

/-- Embeds `module1` of `outrigger_validate.py`.  `prefix` is
`'_'.join(file_prefix.split('_')[:2])` and `plate` is
`file_prefix.split('_')[1]`; indexing `[1]` raises `IndexError` when the
split has fewer than two tokens, modelled by `none`. -/
def module1 (s3path : List Char) : Option (List Char × List Char × List Char) :=
  let file_pre := filePre s3path
  let toks := splitOnChar '_' file_pre
  match toks[1]? with
  | some plate => some (file_pre, List.intercalate ['_'] (toks.take 2), plate)
  | none => none

/-- Exit codes returned by the external subprocesses invoked by `main`
(`aws s3 cp` download, `outrigger index`, `outrigger validate`, the two
`aws s3 cp` uploads), plus the elapsed-seconds value logged at the end.
These are opaque to the script: it only records them. -/
structure Env where
  download : Int
  outrigger : Int
  validate : Int
  se_up : Int
  mxe_up : Int
  etime : Int
deriving DecidableEq

/-- Embeds `main` of `outrigger_validate.py`: the ordered list of external
stages actually invoked (first component) and the ordered log lines
`(name, value)` appended to `log.txt` (second component).  The body is
straight-line and exit codes are never inspected, but when `module1`
raises, `file_prefix` is left unassigned: the `parse_path` failure is
logged as 1, the download still runs and is logged, and then evaluating
`module3A(wkdir, file_prefix, gtf_file)` raises an uncaught
`UnboundLocalError`, aborting the script before the index stage — nothing
past the `s3_download` line is invoked or logged. -/
def mainRun (s3path : List Char) (env : Env) : List String × List (String × Int) :=
  match module1 s3path with
  | some _ =>
    (["s3_download", "run_outrigger", "run_validate", "se_upload", "mxe_upload"],
     [("parse_path", 0),
      ("s3_download", env.download),
      ("run_outrigger", env.outrigger),
      ("run_validate", env.validate),
      ("se_upload", env.se_up),
      ("mxe_upload", env.mxe_up),
      ("__exec_time", env.etime)])
  | none =>
    (["s3_download"],
     [("parse_path", 1),
      ("s3_download", env.download)])

/-- Modelled from the spec (for comparison with `module1`): the number of
underscore-delimited tokens of the path's final slash-separated segment
taken before that segment's first dot.  The spec's stated failure condition
is that this count is below two. -/
def specFinalSegTokens (p : List Char) : Nat :=
  (splitOnChar '_' ((splitOnChar '.' ((splitOnChar '/' p).getLastD [])).headD [])).length

theorem intercalate_pair (s a b : List Char) :
    List.intercalate s [a, b] = a ++ s ++ b := by
  simp [List.intercalate, List.intersperse]

/-- C1 (amended): for every path `d/A_B_rest.ext` whose directory part `d`
contains no dot — so the path's first dot is the one ending the final
segment's stem — the parser returns `file_prefix = A_B_rest`,
`prefix = A_B` and `plate = B`.  (Without the no-dot condition on `d` the
parser cuts the path at its first dot before taking the last slash
segment, and the claim fails; see the counterexample.) -/
theorem module1_wellformed_parse
    (d A B rest ext : List Char)
    (hd : '.' ∉ d) (hA : '.' ∉ A) (hB : '.' ∉ B) (hr : '.' ∉ rest)
    (hA2 : '/' ∉ A) (hB2 : '/' ∉ B) (hr2 : '/' ∉ rest)
    (hA3 : '_' ∉ A) (hB3 : '_' ∉ B) :
    module1 (d ++ '/' :: ((A ++ '_' :: B ++ '_' :: rest) ++ '.' :: ext))
      = some (A ++ '_' :: B ++ '_' :: rest, A ++ '_' :: B, B) := by
  have hSdot : ('.' : Char) ∉ A ++ '_' :: (B ++ '_' :: rest) := by
    intro hmem
    simp only [List.mem_append, List.mem_cons] at hmem
    rcases hmem with h1 | h2 | h3 | h4 | h5
    · exact hA h1
    · exact absurd h2 (by decide)
    · exact hB h3
    · exact absurd h4 (by decide)
    · exact hr h5
  have hSsl : ('/' : Char) ∉ A ++ '_' :: (B ++ '_' :: rest) := by
    intro hmem
    simp only [List.mem_append, List.mem_cons] at hmem
    rcases hmem with h1 | h2 | h3 | h4 | h5
    · exact hA2 h1
    · exact absurd h2 (by decide)
    · exact hB2 h3
    · exact absurd h4 (by decide)
    · exact hr2 h5
  have hpredot : ('.' : Char) ∉ d ++ '/' :: (A ++ '_' :: (B ++ '_' :: rest)) := by
    intro hmem
    rcases List.mem_append.mp hmem with h1 | h2
    · exact hd h1
    · rcases List.mem_cons.mp h2 with h3 | h4
      · exact absurd h3 (by decide)
      · exact hSdot h4
  have hform : d ++ '/' :: ((A ++ '_' :: B ++ '_' :: rest) ++ '.' :: ext)
      = (d ++ '/' :: (A ++ '_' :: (B ++ '_' :: rest))) ++ '.' :: ext := by
    simp [List.append_assoc]
  have hfp : filePre (d ++ '/' :: ((A ++ '_' :: B ++ '_' :: rest) ++ '.' :: ext))
      = A ++ '_' :: (B ++ '_' :: rest) := by
    rw [filePre, hform, splitOnChar_append hpredot]
    simp only [List.headD_cons]
    exact splitOnChar_getLastD hSsl d
  simp only [module1, hfp, splitOnChar_append hA3, splitOnChar_append hB3]
  simp [intercalate_pair]

/-- Witness for the C1 theorem at the spec's example path
`s3://bucket/SAMPLE_PLATE01_L001.fastq.gz`. -/
theorem module1_wellformed_parse_witness :
    module1 ("s3://bucket/SAMPLE_PLATE01_L001.fastq.gz".toList)
      = some ("SAMPLE_PLATE01_L001".toList, "SAMPLE_PLATE01".toList, "PLATE01".toList) := by
  have h := module1_wellformed_parse "s3://bucket".toList "SAMPLE".toList "PLATE01".toList
      "L001".toList "fastq.gz".toList (by decide) (by decide) (by decide) (by decide)
      (by decide) (by decide) (by decide) (by decide) (by decide)
  have e1 : "s3://bucket".toList
        ++ '/' :: (("SAMPLE".toList ++ '_' :: "PLATE01".toList ++ '_' :: "L001".toList)
          ++ '.' :: "fastq.gz".toList)
      = "s3://bucket/SAMPLE_PLATE01_L001.fastq.gz".toList := by decide
  have e2 : "SAMPLE".toList ++ '_' :: "PLATE01".toList ++ '_' :: "L001".toList
      = "SAMPLE_PLATE01_L001".toList := by decide
  have e3 : "SAMPLE".toList ++ '_' :: "PLATE01".toList = "SAMPLE_PLATE01".toList := by decide
  rw [e1, e2, e3] at h
  exact h

/-- C1 counterexample: a well-formed object-storage path with a dot in the
bucket name.  Its final segment has the required `A_B_rest.ext` shape
(first conjunct), yet the parser fails (`IndexError`, modelled as `none`)
instead of returning the three components, because it cuts the whole path
at its first dot before isolating the final segment. -/
theorem module1_dotted_bucket_cex :
    ("s3://my.bucket/SAMPLE_PLATE01_L001.fastq.gz".toList
        = "s3://my.bucket".toList
            ++ '/' :: (("SAMPLE".toList ++ '_' :: "PLATE01".toList ++ '_' :: "L001".toList)
              ++ '.' :: "fastq.gz".toList))
    ∧ module1 ("s3://my.bucket/SAMPLE_PLATE01_L001.fastq.gz".toList) = none :=
  ⟨by decide, by decide⟩

/-- C6 (amended): a *non-zero exit status* of any stage never prevents a
later stage: whenever the parse succeeds, every downstream stage runs for
every combination of exit codes, the codes being only recorded in the log.
A *parse failure* however does gate the run: only the download is still
invoked, because the index stage's argument list evaluates the unassigned
`file_prefix` and the uncaught `UnboundLocalError` aborts the script. -/
theorem stages_exit_codes_ignored (p : List Char) (env : Env) :
    ((module1 p).isSome →
      (mainRun p env).1
        = ["s3_download", "run_outrigger", "run_validate", "se_upload", "mxe_upload"])
    ∧ ((module1 p).isNone → (mainRun p env).1 = ["s3_download"]) := by
  unfold mainRun
  cases h : module1 p <;> simp [h]

/-- Witness for the C6 theorem: with every external stage failing (exit
code 1) all five downstream stages are still invoked. -/
theorem stages_exit_codes_ignored_witness :
    (mainRun ("s3://bucket/SAMPLE_PLATE01_L001.fastq.gz".toList) ⟨1, 1, 1, 1, 1, 7⟩).1
      = ["s3_download", "run_outrigger", "run_validate", "se_upload", "mxe_upload"] :=
  (stages_exit_codes_ignored ("s3://bucket/SAMPLE_PLATE01_L001.fastq.gz".toList)
    ⟨1, 1, 1, 1, 1, 7⟩).1 (by decide)

/-- C6 counterexample: on a path whose parse fails, the index, validate
and upload stages are *not* invoked — the run aborts after the download —
contradicting the claim that a parse failure never prevents a later
stage. -/
theorem stages_after_parse_failure_cex :
    (mainRun ("s3://b/ABfile.csv".toList) ⟨0, 0, 0, 0, 0, 0⟩).1 = ["s3_download"]
    ∧ (mainRun ("s3://b/ABfile.csv".toList) ⟨0, 0, 0, 0, 0, 0⟩).1
        ≠ ["s3_download", "run_outrigger", "run_validate", "se_upload", "mxe_upload"] :=
  ⟨by decide, by decide⟩

/-- C7: a complete pipeline run (one whose parse succeeds, so that the
script reaches its end) appends exactly one log line per invoked stage, in
invocation order `parse_path, s3_download, run_outrigger, run_validate,
se_upload, mxe_upload, __exec_time`, each line carrying that stage's exit
code (or the elapsed time), regardless of every stage's exit status. -/
theorem log_one_line_per_stage (p : List Char) (env : Env)
    (h : (module1 p).isSome) :
    (mainRun p env).2
        = [("parse_path", 0), ("s3_download", env.download),
           ("run_outrigger", env.outrigger), ("run_validate", env.validate),
           ("se_upload", env.se_up), ("mxe_upload", env.mxe_up),
           ("__exec_time", env.etime)]
    ∧ (mainRun p env).2.map Prod.fst
        = ["parse_path", "s3_download", "run_outrigger", "run_validate",
           "se_upload", "mxe_upload", "__exec_time"] := by
  unfold mainRun
  cases hm : module1 p with
  | some pr => simp
  | none => rw [hm] at h; cases h

/-- Witness for the C7 theorem: the log of a run on the example path with
every external stage failing. -/
theorem log_one_line_per_stage_witness :
    (mainRun ("s3://bucket/SAMPLE_PLATE01_L001.fastq.gz".toList) ⟨1, 1, 1, 1, 1, 9⟩).2.map Prod.fst
      = ["parse_path", "s3_download", "run_outrigger", "run_validate",
         "se_upload", "mxe_upload", "__exec_time"] :=
  (log_one_line_per_stage ("s3://bucket/SAMPLE_PLATE01_L001.fastq.gz".toList)
    ⟨1, 1, 1, 1, 1, 9⟩ (by decide)).2

/-- C8 (amended): the parse fails exactly when `file_prefix` — the portion
of the path before its *first dot*, taken after its last slash — has fewer
than two underscore-delimited tokens; on failure the first log line of the
run is `parse_path, 1`, a bare generic code with no structured error
value. -/
theorem parse_fail_iff (p : List Char) (env : Env) :
    (module1 p = none ↔ (splitOnChar '_' (filePre p)).length < 2)
    ∧ (module1 p = none → (mainRun p env).2.getD 0 ("", 0) = ("parse_path", 1)) := by
  constructor
  · have h1 : module1 p = none ↔ (splitOnChar '_' (filePre p))[1]? = none := by
      unfold module1
      cases h : (splitOnChar '_' (filePre p))[1]? with
      | none => simp [h]
      | some v => simp [h]
    rw [h1, List.getElem?_eq_none_iff]
    omega
  · intro h
    simp [mainRun, h]

/-- Witness for the C8 theorem: a path whose final segment has no
underscore makes the first log line `parse_path, 1`. -/
theorem parse_fail_iff_witness :
    (mainRun ("s3://b/ABfile.csv".toList) ⟨0, 0, 0, 0, 0, 0⟩).2.getD 0 ("", 0)
      = ("parse_path", 1) :=
  (parse_fail_iff ("s3://b/ABfile.csv".toList) ⟨0, 0, 0, 0, 0, 0⟩).2 (by decide)

/-- C8 counterexample: for a path with a dotted bucket name the final
slash segment has two underscore tokens before its first dot (so the
claim's condition for success holds), yet the parse fails. -/
theorem parse_fail_spec_cex :
    2 ≤ specFinalSegTokens ("s3://my.bucket/A_B.csv".toList)
    ∧ module1 ("s3://my.bucket/A_B.csv".toList) = none :=
  ⟨by decide, by decide⟩

/-- The annotated expression matrix of `scanpy_helpers.py`: rows keyed by
cell identifiers (`obs_names`), columns by gene symbols (`var_names`), the
numeric matrix `X` row by row, and the per-cell metadata table `obs` as a
list of named columns, each column one value per cell.  Numeric entries are
opaque to every operation studied here and carried as integers; metadata
values are strings, matching the categorical columns the subsetter
compares. -/
structure AnnData where
  obs_names : List String
  var_names : List String
  X : List (List Int)
  obs : List (String × List String)
deriving DecidableEq

/-- The data-model invariant of the spec: the metadata tables and the matrix
agree along the row axis (one metadata value per matrix row in every
column, one matrix row per cell identifier) and along the column axis (one
matrix entry per gene symbol in every row). -/
def WF (a : AnnData) : Prop :=
  a.X.length = a.obs_names.length
  ∧ (∀ r ∈ a.X, r.length = a.var_names.length)
  ∧ ∀ c ∈ a.obs, c.2.length = a.obs_names.length

instance decWF (a : AnnData) : Decidable (WF a) := by
  unfold WF
  infer_instance

/-- Column access `adata.obs[key]`; `none` models the `KeyError` raised on
a missing column. -/
def lookupCol (obs : List (String × List String)) (key : String) : Option (List String) :=
  (obs.find? (fun c => c.1 == key)).map Prod.snd

/-- One row of the boolean stack: `np.array(input_adata.obs[key] == val, dtype='bool')`. -/
def valRow (col : List String) (v : String) : List Bool :=
  col.map (fun x => x == v)

/-- Column-wise `np.sum(stack, axis=0, dtype='bool')`: with boolean dtype
numpy's sum is a logical OR, and the sum of an empty stack is all-false. -/
def orRows (n : Nat) (rows : List (List Bool)) : List Bool :=
  rows.foldl (fun acc r => List.zipWith (fun x y => x || y) acc r) (List.replicate n false)

/-- Column-wise `np.product(subset_arr, axis=0, dtype='bool')`: with boolean
dtype numpy's product is a logical AND, and the product of an empty array
is all-true. -/
def andRows (n : Nat) (rows : List (List Bool)) : List Bool :=
  rows.foldl (fun acc r => List.zipWith (fun x y => x && y) acc r) (List.replicate n true)

/-- The per-key OR mask of `subset_adata`: the inner loop over `value`.
When the value list is empty the column is never read (so no `KeyError`)
and the empty sum gives an all-false mask. -/
def keyMask (a : AnnData) (key : String) (vals : List String) : Option (List Bool) :=
  if vals.isEmpty then some (List.replicate a.obs_names.length false)
  else (lookupCol a.obs key).map (fun col => orRows a.obs_names.length (vals.map (valRow col)))

/-- The outer loop of `subset_adata` over `feature_dict.items()`, collecting
one mask per key in iteration order. -/
def masksOf (a : AnnData) : List (String × List String) → Option (List (List Bool))
  | [] => some []
  | kv :: rest =>
    match keyMask a kv.1 kv.2, masksOf a rest with
    | some m, some ms => some (m :: ms)
    | _, _ => none

/-- Boolean-mask row selection, the semantics of `adata[subset_list, :]`. -/
def filterMask {α : Type} (xs : List α) (m : List Bool) : List α :=
  ((xs.zip m).filter (fun p => p.2)).map Prod.fst

/-- Embeds `subset_adata` of `scanpy_helpers.py`: level 1 ORs a key's
values, level 2 ANDs across keys, and the resulting row mask is applied to
the matrix, the cell identifiers and every metadata column; gene metadata
is untouched. -/
def subset_adata (a : AnnData) (fd : List (String × List String)) : Option AnnData :=
  (masksOf a fd).map (fun masks =>
    let keep := andRows a.obs_names.length masks
    { obs_names := filterMask a.obs_names keep
      var_names := a.var_names
      X := filterMask a.X keep
      obs := a.obs.map (fun c => (c.1, filterMask c.2 keep)) })

/-- Embeds `subset_adata_v3` of `scanpy_helpers.py`, which runs the same
stack/OR/AND computation directly on the `raw` object (its `stack_len` is
`len(raw)`, again the number of rows). -/
def subset_adata_v3 (raw : AnnData) (fd : List (String × List String)) : Option AnnData :=
  (masksOf raw fd).map (fun masks =>
    let keep := andRows raw.obs_names.length masks
    { obs_names := filterMask raw.obs_names keep
      var_names := raw.var_names
      X := filterMask raw.X keep
      obs := raw.obs.map (fun c => (c.1, filterMask c.2 keep)) })

theorem subset_adata_v3_eq (raw : AnnData) (fd : List (String × List String)) :
    subset_adata_v3 raw fd = subset_adata raw fd := rfl

theorem filterMask_nil {α : Type} (m : List Bool) : filterMask ([] : List α) m = [] := rfl

theorem filterMask_nil_mask {α : Type} (xs : List α) : filterMask xs [] = [] := by
  cases xs <;> rfl

theorem filterMask_cons {α : Type} (x : α) (xs : List α) (b : Bool) (m : List Bool) :
    filterMask (x :: xs) (b :: m) = if b then x :: filterMask xs m else filterMask xs m := by
  cases b <;> simp [filterMask]

/-- Number of `true` entries of a mask: the number of surviving rows. -/
def countT (m : List Bool) : Nat := (m.filter (fun b => b)).length

theorem filterMask_replicate_true {α : Type} (xs : List α) :
    filterMask xs (List.replicate xs.length true) = xs := by
  induction xs with
  | nil => rfl
  | cons x xs ih => simp [List.replicate_succ, filterMask_cons, ih]

theorem filterMask_all_false {α : Type} (xs : List α) (m : List Bool)
    (h : ∀ b ∈ m, b = false) : filterMask xs m = [] := by
  induction xs generalizing m with
  | nil => rfl
  | cons x xs ih =>
    cases m with
    | nil => rfl
    | cons b m =>
      have hb : b = false := h b (List.mem_cons_self b m)
      subst hb
      simp only [filterMask_cons, if_neg]
      exact ih m (fun b hb => h b (List.mem_cons_of_mem _ hb))

theorem filterMask_map {α β : Type} (f : α → β) (xs : List α) (m : List Bool) :
    filterMask (xs.map f) m = (filterMask xs m).map f := by
  induction xs generalizing m with
  | nil => rfl
  | cons x xs ih =>
    cases m with
    | nil => simp [filterMask_nil_mask]
    | cons b m => cases b <;> simp [filterMask_cons, ih]

theorem filterMask_zipWith {α β γ : Type} (f : α → β → γ)
    (xs : List α) (ys : List β) (m : List Bool) :
    filterMask (List.zipWith f xs ys) m
      = List.zipWith f (filterMask xs m) (filterMask ys m) := by
  induction xs generalizing ys m with
  | nil => simp [filterMask_nil]
  | cons x xs ih =>
    cases ys with
    | nil => simp [filterMask_nil, filterMask_nil_mask]
    | cons y ys =>
      cases m with
      | nil => simp [filterMask_nil_mask]
      | cons b m => cases b <;> simp [filterMask_cons, ih]

theorem filterMask_length {α : Type} (xs : List α) (m : List Bool)
    (h : xs.length = m.length) : (filterMask xs m).length = countT m := by
  induction xs generalizing m with
  | nil =>
    cases m with
    | nil => rfl
    | cons b m => simp at h
  | cons x xs ih =>
    cases m with
    | nil => simp at h
    | cons b m =>
      have h' : xs.length = m.length := by simpa using h
      cases b <;> simp [filterMask_cons, countT, ih _ h']

theorem filterMask_replicate {α : Type} (c : α) (m : List Bool) :
    filterMask (List.replicate m.length c) m = List.replicate (countT m) c := by
  induction m with
  | nil => rfl
  | cons b m ih =>
    cases b <;>
      simp [List.replicate_succ, filterMask_cons, countT, List.replicate_succ] at ih ⊢ <;>
      simpa [countT] using ih

theorem filterMask_self (m : List Bool) :
    filterMask m m = List.replicate (countT m) true := by
  induction m with
  | nil => rfl
  | cons b m ih =>
    cases b <;> simp [filterMask_cons, countT, List.replicate_succ] at ih ⊢ <;>
      simpa [countT] using ih

theorem filterMask_foldl_zipWith (f : Bool → Bool → Bool)
    (rows : List (List Bool)) (acc m : List Bool) :
    filterMask (rows.foldl (fun a r => List.zipWith f a r) acc) m
      = (rows.map (fun r => filterMask r m)).foldl
          (fun a r => List.zipWith f a r) (filterMask acc m) := by
  induction rows generalizing acc with
  | nil => rfl
  | cons r rows ih => simp [List.foldl_cons, ih, filterMask_zipWith]

theorem orRows_filterMask (rows : List (List Bool)) (m : List Bool) :
    filterMask (orRows m.length rows) m
      = orRows (countT m) (rows.map (fun r => filterMask r m)) := by
  unfold orRows
  rw [filterMask_foldl_zipWith, filterMask_replicate]

theorem andRows_filterMask (rows : List (List Bool)) (m : List Bool) :
    filterMask (andRows m.length rows) m
      = andRows (countT m) (rows.map (fun r => filterMask r m)) := by
  unfold andRows
  rw [filterMask_foldl_zipWith, filterMask_replicate]

theorem foldl_zipWith_length (f : Bool → Bool → Bool) (rows : List (List Bool))
    (acc : List Bool) (n : Nat) (hacc : acc.length = n)
    (hrows : ∀ r ∈ rows, r.length = n) :
    (rows.foldl (fun a r => List.zipWith f a r) acc).length = n := by
  induction rows generalizing acc with
  | nil => simpa using hacc
  | cons r rows ih =>
    simp only [List.foldl_cons]
    refine ih _ ?_ (fun r' hr' => hrows r' (List.mem_cons_of_mem _ hr'))
    simp [hacc, hrows r (List.mem_cons_self r rows)]

theorem orRows_length (n : Nat) (rows : List (List Bool))
    (hrows : ∀ r ∈ rows, r.length = n) : (orRows n rows).length = n :=
  foldl_zipWith_length _ rows _ n (List.length_replicate n false) hrows

theorem andRows_length (n : Nat) (rows : List (List Bool))
    (hrows : ∀ r ∈ rows, r.length = n) : (andRows n rows).length = n :=
  foldl_zipWith_length _ rows _ n (List.length_replicate n true) hrows

theorem zipWith_and_all_false_right (acc r : List Bool) (h : ∀ b ∈ r, b = false) :
    ∀ b ∈ List.zipWith (fun x y => x && y) acc r, b = false := by
  induction acc generalizing r with
  | nil => simp
  | cons a acc ih =>
    cases r with
    | nil => simp
    | cons b r =>
      have hb : b = false := h b (List.mem_cons_self b r)
      intro x hx
      rcases List.mem_cons.mp hx with h1 | h2
      · simp [h1, hb]
      · exact ih r (fun y hy => h y (List.mem_cons_of_mem _ hy)) x h2

theorem zipWith_and_all_false_left (acc r : List Bool) (h : ∀ b ∈ acc, b = false) :
    ∀ b ∈ List.zipWith (fun x y => x && y) acc r, b = false := by
  induction acc generalizing r with
  | nil => simp
  | cons a acc ih =>
    cases r with
    | nil => simp
    | cons b r =>
      have ha : a = false := h a (List.mem_cons_self a acc)
      intro x hx
      rcases List.mem_cons.mp hx with h1 | h2
      · simp [h1, ha]
      · exact ih r (fun y hy => h y (List.mem_cons_of_mem _ hy)) x h2

theorem foldl_and_all_false (rows : List (List Bool)) (acc : List Bool)
    (h : (∀ b ∈ acc, b = false) ∨ ∃ r ∈ rows, ∀ b ∈ r, b = false) :
    ∀ b ∈ rows.foldl (fun a r => List.zipWith (fun x y => x && y) a r) acc, b = false := by
  induction rows generalizing acc with
  | nil =>
    rcases h with h | ⟨r, hr, _⟩
    · simpa using h
    · cases hr
  | cons r rows ih =>
    simp only [List.foldl_cons]
    apply ih
    rcases h with hacc | ⟨r', hr', hfr⟩
    · exact Or.inl (zipWith_and_all_false_left _ _ hacc)
    · rcases List.mem_cons.mp hr' with heq | hmem
      · subst heq
        exact Or.inl (zipWith_and_all_false_right _ _ hfr)
      · exact Or.inr ⟨r', hmem, hfr⟩

theorem masksOf_mem_empty (a : AnnData) (fd : List (String × List String))
    (masks : List (List Bool)) (h : masksOf a fd = some masks)
    (kv : String × List String) (hkv : kv ∈ fd) (hempty : kv.2 = []) :
    List.replicate a.obs_names.length false ∈ masks := by
  induction fd generalizing masks with
  | nil => cases hkv
  | cons kv0 fd ih =>
    simp only [masksOf] at h
    cases hk : keyMask a kv0.1 kv0.2 with
    | none =>
      rw [hk] at h
      cases h
    | some m =>
      rw [hk] at h
      cases hrec : masksOf a fd with
      | none =>
        rw [hrec] at h
        cases h
      | some ms =>
        rw [hrec] at h
        cases h
        rcases List.mem_cons.mp hkv with heq | hmem
        · subst heq
          have hmask : m = List.replicate a.obs_names.length false := by
            rw [keyMask, hempty] at hk
            simpa using hk.symm
          exact hmask ▸ List.mem_cons_self _ _
        · exact List.mem_cons_of_mem _ (ih ms hrec hmem)

theorem lookupCol_mem (obs : List (String × List String)) (key : String)
    (col : List String) (h : lookupCol obs key = some col) :
    ∃ name, (name, col) ∈ obs := by
  unfold lookupCol at h
  cases hf : obs.find? (fun c => c.1 == key) with
  | none => rw [hf] at h; cases h
  | some c =>
    rw [hf] at h
    cases h
    exact ⟨c.1, by simpa using List.mem_of_find?_eq_some hf⟩

theorem keyMask_length (a : AnnData) (key : String) (vals : List String)
    (mask : List Bool)
    (hWFc : ∀ c ∈ a.obs, c.2.length = a.obs_names.length)
    (h : keyMask a key vals = some mask) :
    mask.length = a.obs_names.length := by
  unfold keyMask at h
  by_cases hv : vals.isEmpty
  · rw [if_pos hv] at h
    cases h
    simp
  · rw [if_neg hv] at h
    cases hl : lookupCol a.obs key with
    | none => rw [hl] at h; cases h
    | some col =>
      rw [hl] at h
      cases h
      obtain ⟨name, hmem⟩ := lookupCol_mem _ _ _ hl
      have hcol : col.length = a.obs_names.length := hWFc (name, col) hmem
      refine orRows_length _ _ ?_
      intro r hr
      rcases List.mem_map.mp hr with ⟨v, _, rfl⟩
      simpa [valRow] using hcol

theorem masksOf_lengths (a : AnnData) (fd : List (String × List String))
    (masks : List (List Bool)) (h : masksOf a fd = some masks)
    (hWFc : ∀ c ∈ a.obs, c.2.length = a.obs_names.length) :
    ∀ m ∈ masks, m.length = a.obs_names.length := by
  induction fd generalizing masks with
  | nil =>
    cases h
    simp
  | cons kv fd ih =>
    simp only [masksOf] at h
    cases hk : keyMask a kv.1 kv.2 with
    | none => rw [hk] at h; cases h
    | some m0 =>
      rw [hk] at h
      cases hrec : masksOf a fd with
      | none => rw [hrec] at h; cases h
      | some ms =>
        rw [hrec] at h
        cases h
        intro m hm
        rcases List.mem_cons.mp hm with heq | hmem
        · exact heq ▸ keyMask_length a kv.1 kv.2 m0 hWFc hk
        · exact ih ms hrec m hmem

/-- C4: if any key of the feature dictionary maps to an empty value list,
the subsetter returns a matrix with zero rows: the empty OR over that key's
values is never true, and the AND across keys therefore excludes every
row. -/
theorem subset_empty_vals_zero_rows (a : AnnData) (fd : List (String × List String))
    (out : AnnData) (hkey : ∃ kv ∈ fd, kv.2 = [])
    (h : subset_adata a fd = some out) :
    out.obs_names = [] ∧ out.X = [] := by
  unfold subset_adata at h
  cases hm : masksOf a fd with
  | none => rw [hm] at h; cases h
  | some masks =>
    rw [hm] at h
    simp only [Option.map_some'] at h
    obtain ⟨kv, hkv, hempty⟩ := hkey
    have hrep : List.replicate a.obs_names.length false ∈ masks :=
      masksOf_mem_empty a fd masks hm kv hkv hempty
    have hfal : ∀ b ∈ andRows a.obs_names.length masks, b = false := by
      unfold andRows
      exact foldl_and_all_false masks _ (Or.inr ⟨_, hrep, fun b hb => by
        simpa using List.eq_of_mem_replicate hb⟩)
    injection h with h2
    subst h2
    exact ⟨filterMask_all_false _ _ hfal, filterMask_all_false _ _ hfal⟩

/-- Witness for the C4 theorem: a two-cell matrix subsetted with
`{"batch": []}` comes back with no rows. -/
theorem subset_empty_vals_zero_rows_witness :
    subset_adata ⟨["c1", "c2"], ["g1"], [[1], [2]], [("batch", ["x", "y"])]⟩
        [("batch", [])]
      = some ⟨[], ["g1"], [], [("batch", [])]⟩
    ∧ (⟨[], ["g1"], [], [("batch", [])]⟩ : AnnData).obs_names = []
    ∧ (⟨[], ["g1"], [], [("batch", [])]⟩ : AnnData).X = [] := by
  refine ⟨by decide, ?_⟩
  exact subset_empty_vals_zero_rows
    ⟨["c1", "c2"], ["g1"], [[1], [2]], [("batch", ["x", "y"])]⟩ [("batch", [])]
    ⟨[], ["g1"], [], [("batch", [])]⟩ ⟨("batch", []), by decide, rfl⟩ (by decide)

theorem map_eq_self_of {α : Type} (l : List α) (f : α → α) (h : ∀ x ∈ l, f x = x) :
    l.map f = l := by
  induction l with
  | nil => rfl
  | cons x l ih =>
    rw [List.map_cons, h x (List.mem_cons_self x l),
      ih (fun y hy => h y (List.mem_cons_of_mem _ hy))]

/-- C10: subsetting with an empty feature dictionary is the identity on a
well-formed matrix: the empty AND across keys is vacuously true for every
row, so every row and every metadata entry survives unchanged. -/
theorem subset_empty_dict_id (a : AnnData) (hWF : WF a) :
    subset_adata a [] = some a := by
  obtain ⟨hX, hXr, hobs⟩ := hWF
  unfold subset_adata masksOf
  simp only [Option.map_some']
  have hand : andRows a.obs_names.length [] = List.replicate a.obs_names.length true := rfl
  congr 1
  obtain ⟨ons, vn, X, obs⟩ := a
  simp only at hand hX hobs ⊢
  rw [hand]
  congr 1
  · exact filterMask_replicate_true ons
  · rw [← hX]
    exact filterMask_replicate_true X
  · refine map_eq_self_of _ _ ?_
    intro c hc
    have hcl : c.2.length = ons.length := hobs c hc
    rw [← hcl, filterMask_replicate_true c.2]

/-- Witness for the C10 theorem: a concrete one-cell matrix is returned
unchanged by an empty-dictionary subset. -/
theorem subset_empty_dict_id_witness :
    WF ⟨["c1"], ["g1"], [[3]], [("t", ["u"])]⟩
    ∧ subset_adata ⟨["c1"], ["g1"], [[3]], [("t", ["u"])]⟩ []
        = some ⟨["c1"], ["g1"], [[3]], [("t", ["u"])]⟩ :=
  ⟨by decide, subset_empty_dict_id _ (by decide)⟩

theorem mem_of_mem_filterMask {α : Type} {y : α} {xs : List α} {m : List Bool}
    (h : y ∈ filterMask xs m) : y ∈ xs := by
  unfold filterMask at h
  rcases List.mem_map.mp h with ⟨p, hp, rfl⟩
  exact (List.of_mem_zip (List.mem_of_mem_filter hp)).1

theorem subset_WF_aux (a : AnnData) (fd : List (String × List String))
    (out : AnnData) (hWF : WF a) (h : subset_adata a fd = some out) :
    WF out ∧ out.var_names = a.var_names := by
  obtain ⟨hX, hXr, hobs⟩ := hWF
  unfold subset_adata at h
  cases hm : masksOf a fd with
  | none => rw [hm] at h; cases h
  | some masks =>
    rw [hm] at h
    simp only [Option.map_some'] at h
    injection h with h2
    subst h2
    have hkl : (andRows a.obs_names.length masks).length = a.obs_names.length :=
      andRows_length _ _ (masksOf_lengths a fd masks hm hobs)
    refine ⟨⟨?_, ?_, ?_⟩, rfl⟩
    · rw [filterMask_length a.X _ (hX.trans hkl.symm),
        filterMask_length a.obs_names _ hkl.symm]
    · intro r hr
      exact hXr r (mem_of_mem_filterMask hr)
    · intro c hc
      rcases List.mem_map.mp hc with ⟨c0, hc0, rfl⟩
      simp only
      rw [filterMask_length c0.2 _ ((hobs c0 hc0).trans hkl.symm),
        filterMask_length a.obs_names _ hkl.symm]

/-- C3: on a well-formed matrix the subsetter (both `subset_adata` and the
identical `subset_adata_v3`) preserves the key-equality invariant: the
matrix rows, cell identifiers and every metadata column are filtered by
the same row mask, and gene metadata keeps matching the columns. -/
theorem subset_preserves_invariant (a : AnnData) (fd : List (String × List String))
    (out : AnnData) (hWF : WF a) (h : subset_adata a fd = some out) :
    WF out ∧ out.var_names = a.var_names ∧ subset_adata_v3 a fd = some out :=
  ⟨(subset_WF_aux a fd out hWF h).1, (subset_WF_aux a fd out hWF h).2,
    (subset_adata_v3_eq a fd).symm ▸ h⟩

/-- Witness for the C3 theorem on a concrete two-cell matrix filtered down
to its first cell. -/
theorem subset_preserves_invariant_witness :
    WF ⟨["c1", "c2"], ["g1"], [[1], [2]], [("cl", ["0", "1"])]⟩
    ∧ subset_adata ⟨["c1", "c2"], ["g1"], [[1], [2]], [("cl", ["0", "1"])]⟩
        [("cl", ["0"])]
      = some ⟨["c1"], ["g1"], [[1]], [("cl", ["0"])]⟩
    ∧ (WF ⟨["c1"], ["g1"], [[1]], [("cl", ["0"])]⟩
        ∧ (⟨["c1"], ["g1"], [[1]], [("cl", ["0"])]⟩ : AnnData).var_names
            = (⟨["c1", "c2"], ["g1"], [[1], [2]], [("cl", ["0", "1"])]⟩ : AnnData).var_names
        ∧ subset_adata_v3 ⟨["c1", "c2"], ["g1"], [[1], [2]], [("cl", ["0", "1"])]⟩
            [("cl", ["0"])]
          = some ⟨["c1"], ["g1"], [[1]], [("cl", ["0"])]⟩) :=
  ⟨by decide, by decide,
    subset_preserves_invariant
      ⟨["c1", "c2"], ["g1"], [[1], [2]], [("cl", ["0", "1"])]⟩
      [("cl", ["0"])] _ (by decide) (by decide)⟩

theorem lookupCol_map_snd (obs : List (String × List String))
    (keep : List Bool) (key : String) :
    lookupCol (obs.map (fun c => (c.1, filterMask c.2 keep))) key
      = (lookupCol obs key).map (fun col => filterMask col keep) := by
  induction obs with
  | nil => rfl
  | cons c obs ih =>
    simp only [List.map_cons, lookupCol, List.find?]
    cases hc : (c.1 == key) with
    | true => simp
    | false => simpa [lookupCol] using ih

theorem keyMask_subset (a : AnnData) (keep : List Bool)
    (hkl : keep.length = a.obs_names.length)
    (key : String) (vals : List String) (mask : List Bool)
    (h : keyMask a key vals = some mask) :
    keyMask ⟨filterMask a.obs_names keep, a.var_names, filterMask a.X keep,
             a.obs.map (fun c => (c.1, filterMask c.2 keep))⟩ key vals
      = some (filterMask mask keep) := by
  have hn : (filterMask a.obs_names keep).length = countT keep :=
    filterMask_length a.obs_names keep hkl.symm
  unfold keyMask at h ⊢
  by_cases hv : vals.isEmpty
  · rw [if_pos hv] at h ⊢
    injection h with h2
    subst h2
    rw [← hkl, filterMask_replicate]
    simp only [hn]
  · rw [if_neg hv] at h ⊢
    cases hl : lookupCol a.obs key with
    | none => rw [hl] at h; cases h
    | some col =>
      rw [hl] at h
      injection h with h2
      subst h2
      simp only
      rw [lookupCol_map_snd a.obs keep key, hl]
      simp only [Option.map_some', Option.some.injEq, hn]
      rw [← hkl, orRows_filterMask]
      congr 1
      rw [List.map_map]
      refine List.map_congr_left ?_
      intro v _
      simp [Function.comp, valRow, filterMask_map]

theorem masksOf_subset (a : AnnData) (keep : List Bool)
    (hkl : keep.length = a.obs_names.length)
    (fd : List (String × List String)) (masks : List (List Bool))
    (h : masksOf a fd = some masks) :
    masksOf ⟨filterMask a.obs_names keep, a.var_names, filterMask a.X keep,
             a.obs.map (fun c => (c.1, filterMask c.2 keep))⟩ fd
      = some (masks.map (fun m => filterMask m keep)) := by
  induction fd generalizing masks with
  | nil =>
    cases h
    rfl
  | cons kv fd ih =>
    simp only [masksOf] at h ⊢
    cases hk : keyMask a kv.1 kv.2 with
    | none => rw [hk] at h; cases h
    | some m0 =>
      rw [hk] at h
      cases hrec : masksOf a fd with
      | none => rw [hrec] at h; cases h
      | some ms =>
        rw [hrec] at h
        injection h with h2
        subst h2
        rw [keyMask_subset a keep hkl kv.1 kv.2 m0 hk, ih ms hrec]
        rfl

/-- C2: boolean mask subsetting is idempotent — applying `subset_adata`
with the same feature dictionary to its own output returns that output
identically (same rows, same values, same metadata): every surviving row
already satisfies every key's condition. -/
theorem subset_idempotent (a : AnnData) (fd : List (String × List String))
    (out : AnnData) (hWF : WF a) (h : subset_adata a fd = some out) :
    subset_adata out fd = some out := by
  obtain ⟨hX, hXr, hobs⟩ := hWF
  unfold subset_adata at h
  cases hm : masksOf a fd with
  | none => rw [hm] at h; cases h
  | some masks =>
    rw [hm] at h
    simp only [Option.map_some'] at h
    injection h with h2
    subst h2
    have hkl : (andRows a.obs_names.length masks).length = a.obs_names.length :=
      andRows_length _ _ (masksOf_lengths a fd masks hm hobs)
    set keep := andRows a.obs_names.length masks with hkeep
    have hn : (filterMask a.obs_names keep).length = countT keep :=
      filterMask_length a.obs_names keep hkl.symm
    unfold subset_adata
    rw [masksOf_subset a keep hkl fd masks hm]
    simp only [Option.map_some', Option.some.injEq]
    have hkeep2 : andRows (filterMask a.obs_names keep).length
        (masks.map (fun m => filterMask m keep))
        = List.replicate (countT keep) true := by
      rw [hn, ← andRows_filterMask, hkl, ← hkeep, filterMask_self]
    rw [hkeep2]
    congr 1
    · have hlen : (filterMask a.obs_names keep).length = countT keep := hn
      rw [← hlen, filterMask_replicate_true]
    · have hlen : (filterMask a.X keep).length = countT keep :=
        filterMask_length a.X keep (hX.trans hkl.symm)
      rw [← hlen, filterMask_replicate_true]
    · refine map_eq_self_of _ _ ?_
      intro c hc
      rcases List.mem_map.mp hc with ⟨c0, hc0, rfl⟩
      simp only
      have hcl : (filterMask c0.2 keep).length = countT keep :=
        filterMask_length c0.2 keep ((hobs c0 hc0).trans hkl.symm)
      rw [← hcl, filterMask_replicate_true]

/-- Witness for the C2 theorem: subsetting a three-cell matrix by
`{"cl": ["0"]}` and subsetting the result again returns it unchanged. -/
theorem subset_idempotent_witness :
    WF ⟨["c1", "c2", "c3"], ["g1"], [[1], [2], [3]], [("cl", ["0", "1", "0"])]⟩
    ∧ subset_adata ⟨["c1", "c2", "c3"], ["g1"], [[1], [2], [3]],
          [("cl", ["0", "1", "0"])]⟩ [("cl", ["0"])]
        = some ⟨["c1", "c3"], ["g1"], [[1], [3]], [("cl", ["0", "0"])]⟩
    ∧ subset_adata ⟨["c1", "c3"], ["g1"], [[1], [3]], [("cl", ["0", "0"])]⟩
          [("cl", ["0"])]
        = some ⟨["c1", "c3"], ["g1"], [[1], [3]], [("cl", ["0", "0"])]⟩ :=
  ⟨by decide, by decide,
    subset_idempotent
      ⟨["c1", "c2", "c3"], ["g1"], [[1], [2], [3]], [("cl", ["0", "1", "0"])]⟩
      [("cl", ["0"])] _ (by decide) (by decide)⟩

/-- Embeds `classify_type` of `scanpy_helpers.py` exactly as written.  The
comprehension unpacks `for name, cluster in zip(obs['louvain'], obs_names)`,
so `name` is bound to the louvain cluster value and `cluster` to the cell
identifier — swapped relative to their names: `clustered_names` collects
louvain values of cells whose *identifier* occurs in the acceptable-value
list, and raw identifiers are then matched against those louvain values.
`clustered_louvain` and `clustered_obs_names` carry the clustered matrix's
louvain column and cell identifiers in zip order. -/
def classify_type (raw_names : List String) (clustered_louvain : List String)
    (clustered_obs_names : List String) (type_dict : List (String × List String)) :
    List String :=
  let init := List.replicate raw_names.length "unknown"
  type_dict.foldl
    (fun type_list kv =>
      let clustered_names :=
        ((clustered_louvain.zip clustered_obs_names).filter
          (fun nc => kv.2.contains nc.2)).map (fun nc => nc.1)
      (type_list.zip raw_names).map
        (fun tx => if clustered_names.contains tx.2 then kv.1 else tx.1))
    init

/-- C5 evaluated at the claim's own example (cluster assignment
`{"A": ["0","1"], "B": ["2"]}`, clustered identifiers `{c1:0, c2:2, c3:1}`,
raw identifiers `{c1,c2,c3,c4}`): because of the swapped `zip` unpacking,
no cell identifier ever matches a cluster value, every cell stays
`"unknown"`, and the claimed labelling `{c1:A, c2:B, c3:A, c4:unknown}` is
not produced. -/
theorem classify_type_example_all_unknown :
    classify_type ["c1", "c2", "c3", "c4"] ["0", "2", "1"] ["c1", "c2", "c3"]
        [("A", ["0", "1"]), ("B", ["2"])]
      = ["unknown", "unknown", "unknown", "unknown"]
    ∧ classify_type ["c1", "c2", "c3", "c4"] ["0", "2", "1"] ["c1", "c2", "c3"]
        [("A", ["0", "1"]), ("B", ["2"])]
      ≠ ["A", "B", "A", "unknown"] :=
  ⟨by decide, by decide⟩

/-- Python `range(start, stop, step)` for a positive step: number of
elements produced. -/
def pyRangeLen (start stop step : Nat) : Nat := (stop - start + step - 1) / step

/-- Python `range(start, stop, step)` for a positive step. -/
def pyRange (start stop step : Nat) : List Nat :=
  List.range' start (pyRangeLen start stop step) step

theorem range'_eq_map (s n step : Nat) :
    List.range' s n step = (List.range n).map (fun i => s + step * i) := by
  induction n generalizing s with
  | zero => rfl
  | succ n ih =>
    rw [List.range'_succ, List.range_succ_eq_map, List.map_cons, ih, List.map_map]
    refine congrArg₂ _ (by omega) ?_
    refine List.map_congr_left ?_
    intro i _
    simp [Function.comp, Nat.succ_eq_add_one]
    ring

/-- Embeds `scan_res` of `scanpy_helpers.py`.  The external Louvain
clustering and the logistic-regression agreement score are opaque
collaborators, passed as the oracles `clusterAt` (cluster labels of every
cell at a resolution) and `score` — and so is the binary floating-point
arithmetic of `basis_point = int(step_size * 100)`, which truncates a
float product (Python computes `int(0.29 * 100) == 28`); the embedding
therefore takes the computed basis point as its input.
`res_list = [x/100 for x in range(basis_point, 100, basis_point)]`; a zero
basis point (any step size below 0.01) makes `range` raise `ValueError`,
modelled by `none`.  One cluster column per resolution, one score per
adjacent column pair; returns `(res_list, acc_list)`. -/
def scan_res (clusterAt : ℚ → List String) (score : List String → List String → ℚ)
    (basis_point : Nat) : Option (List ℚ × List ℚ) :=
  if basis_point = 0 then none
  else
    let res_list := (pyRange basis_point 100 basis_point).map (fun x : Nat => (x : ℚ) / 100)
    let cols := res_list.map clusterAt
    let acc_list := (List.range (cols.length - 1)).map
      (fun idx => score (cols.getD idx []) (cols.getD (idx + 1) []))
    some (res_list, acc_list)

theorem getD_map_range {α : Type} (g : Nat → α) (n i : Nat) (h : i < n) (d : α) :
    ((List.range n).map g).getD i d = g i := by
  rw [List.getD_eq_getElem?_getD, List.getElem?_map, List.getElem?_range h]
  rfl

/-- C9 (amended): for every computed basis point `k = int(step_size * 100)`
with `1 ≤ k ≤ 99`, the scan runs and evaluates exactly the arithmetic
progression `k/100, 2k/100, …` of resolutions — staying strictly below 1.0
and maximal (the next element would reach 1.0 since `(99/k + 1)·k ≥ 100`) —
and produces exactly `len(res_list) - 1` agreement scores, one per adjacent
pair of resolutions in that order.  (For a step size of 1.0 or more the
resolution list is empty and 0, not -1, scores are produced; below 0.01
the zero range step raises `ValueError`: see the counterexample.) -/
theorem scan_res_shape (clusterAt : ℚ → List String)
    (score : List String → List String → ℚ) (k : Nat) (h1 : 1 ≤ k) (h2 : k ≤ 99) :
    scan_res clusterAt score k
      = some ((List.range (99 / k)).map (fun i => (((i + 1) * k : Nat) : ℚ) / 100),
              (List.range (99 / k - 1)).map
                (fun idx => score (clusterAt ((((idx + 1) * k : Nat) : ℚ) / 100))
                  (clusterAt ((((idx + 2) * k : Nat) : ℚ) / 100))))
    ∧ (∀ r ∈ (List.range (99 / k)).map (fun i => (((i + 1) * k : Nat) : ℚ) / 100), r < 1)
    ∧ (99 / k + 1) * k ≥ 100
    ∧ 1 ≤ 99 / k
    ∧ ((List.range (99 / k - 1)).map
          (fun idx => score (clusterAt ((((idx + 1) * k : Nat) : ℚ) / 100))
            (clusterAt ((((idx + 2) * k : Nat) : ℚ) / 100)))).length + 1
        = ((List.range (99 / k)).map (fun i => (((i + 1) * k : Nat) : ℚ) / 100)).length := by
  have h99 : 1 ≤ 99 / k := (Nat.one_le_div_iff (by omega)).mpr h2
  have hlen : pyRangeLen k 100 k = 99 / k := by
    unfold pyRangeLen
    congr 1
    omega
  have hrl : (pyRange k 100 k).map (fun x : Nat => (x : ℚ) / 100)
      = (List.range (99 / k)).map (fun i => (((i + 1) * k : Nat) : ℚ) / 100) := by
    unfold pyRange
    rw [hlen, range'_eq_map, List.map_map]
    refine List.map_congr_left ?_
    intro i _
    have hik : k + k * i = (i + 1) * k := by ring
    simp [Function.comp, hik]
  refine ⟨?_, ?_, ?_, h99, ?_⟩
  · unfold scan_res
    rw [if_neg (by omega : ¬ k = 0)]
    simp only [hrl, List.map_map, List.length_map, List.length_range,
      Option.some.injEq, Prod.mk.injEq]
    refine ⟨trivial, ?_⟩
    refine List.map_congr_left ?_
    intro idx hidx
    have hidx1 : idx < 99 / k := by
      have := List.mem_range.mp hidx
      omega
    have hidx2 : idx + 1 < 99 / k := by
      have := List.mem_range.mp hidx
      omega
    rw [getD_map_range _ _ _ hidx1, getD_map_range _ _ _ hidx2]
    simp only [Function.comp]
  · intro r hr
    rcases List.mem_map.mp hr with ⟨i, hi, rfl⟩
    have hik : (i + 1) * k ≤ 99 := by
      have hi1 : i + 1 ≤ 99 / k := Nat.succ_le_of_lt (List.mem_range.mp hi)
      calc (i + 1) * k ≤ (99 / k) * k := Nat.mul_le_mul_right k hi1
        _ ≤ 99 := Nat.div_mul_le_self 99 k
    rw [div_lt_one (by norm_num : (0 : ℚ) < 100)]
    calc ((((i + 1) * k : Nat)) : ℚ) ≤ ((99 : Nat) : ℚ) := Nat.cast_le.mpr hik
      _ < 100 := by norm_num
  · have h7 : (99 / k + 1) * k = k * (99 / k) + k := by ring
    have h6 : k * (99 / k) + 99 % k = 99 := Nat.div_add_mod 99 k
    have h5 : 99 % k < k := Nat.mod_lt _ (by omega)
    rw [h7]
    generalize k * (99 / k) = x at h6 ⊢
    omega
  · simp only [List.length_map, List.length_range]
    omega

/-- Witness for the C9 theorem at the source's default step size 0.05
(basis point `int(0.05 * 100) = 5`): the scan runs and emits one score
fewer than its 19 candidate resolutions. -/
theorem scan_res_shape_witness :
    (1 ≤ 5 ∧ 5 ≤ 99)
    ∧ scan_res (fun _ => ([] : List String)) (fun _ _ => (0 : ℚ)) 5
        = some ((List.range (99 / 5)).map (fun i => (((i + 1) * 5 : Nat) : ℚ) / 100),
                (List.range (99 / 5 - 1)).map (fun _ => (0 : ℚ))) :=
  ⟨⟨by decide, by decide⟩,
    (scan_res_shape (fun _ => []) (fun _ _ => 0) 5 (by decide) (by decide)).1⟩

/-- C9 counterexample: the claim fails outside the amended range.  At a
step size of 1.5 — basis point `int(1.5 * 100) = 150`, the conversion
exact since 1.5 and 150.0 are binary-representable — the scan completes
with an empty resolution list and zero scores, where the claimed count
`len(res_list) - 1` is `-1`; and at any step size below 0.01 the basis
point is 0 and `range(0, 100, 0)` raises `ValueError` (modelled by
`none`), so no scores are produced at all. -/
theorem scan_res_shape_cex :
    scan_res (fun _ => []) (fun _ _ => 0) 150 = some ([], [])
    ∧ ((([] : List ℚ).length : ℤ) ≠ (([] : List ℚ).length : ℤ) - 1)
    ∧ scan_res (fun _ => []) (fun _ _ => 0) 0 = none :=
  ⟨by decide, by decide, by decide⟩

end BiohubScratch
